import Mathlib

/-!
Shallow embedding of the hybrid document-retrieval core of the repository:
`SimpleVectorStore` (src/src/ch06/simple-vector-store.ts) and the
`KeywordSearch` / `HybridSearchEngine` classes of the hybrid-search module
(src/unnamed/part_002).

Modelling conventions:
* JavaScript numbers are modelled as rationals (`ℚ`).  All concrete inputs
  used below are small integers or simple fractions, on which JavaScript
  double arithmetic is exact, so the rational model agrees with the source.
* `Math.sqrt` is not rational-valued in general; it is modelled by `ratSqrt`,
  which is exact on perfect squares (all concrete vectors used below have
  perfect-square norms).  The `denominator === 0` guard of the source is
  modelled by the equivalent rational condition, see `cosineSimilarity`.
* Thrown exceptions are modelled with `Except String`.
* `Array.prototype.sort` with the comparator `(a, b) => b.score - a.score` is,
  per the ECMAScript specification, a stable sort for this consistent
  comparator; a stable sort for a total preorder has a unique result, which
  is computed here by `List.insertionSort` (a stable algorithm).
* Document metadata is an opaque value in the source (`Record<string, any>`);
  it is modelled by an uninterpreted `String`, which the embedding never
  inspects except through caller-supplied predicates.
-/

deriving instance DecidableEq for Except

set_option maxRecDepth 100000

namespace LangchanJs

/-- Metadata is treated as an uninterpreted value throughout the source. -/
abbrev MetaVal := String

/-- Chunk record `{id, text, meta}` (src/src/ch06/chunk.ts); the same record
shape is stored by `KeywordSearch.addDocuments`. -/
structure Chunk where
  id : String
  text : String
  meta : MetaVal
deriving DecidableEq, Repr, Inhabited

/-- The `VectorDoc` record of src/src/ch06/simple-vector-store.ts. -/
structure VectorDoc where
  id : String
  text : String
  vector : List ℚ
  meta : MetaVal
deriving DecidableEq, Repr, Inhabited

/-- Result record `{text, score, meta}` returned by `similaritySearch` and by
`KeywordSearch.search`. -/
structure SearchResult where
  text : String
  score : ℚ
  meta : MetaVal
deriving DecidableEq, Repr, Inhabited

/-- Result record `{text, score, source, meta}` returned by `hybridSearch`. -/
structure HybridResult where
  text : String
  score : ℚ
  source : String
  meta : MetaVal
deriving DecidableEq, Repr, Inhabited

/-- Exact rational square root: the nonnegative root when the argument is a
perfect square of a rational, and `0` otherwise.  This models `Math.sqrt`
faithfully on perfect-square inputs; every concrete vector used in this file
has a perfect-square norm. -/
def ratSqrt (q : ℚ) : ℚ :=
  let sn := Nat.sqrt q.num.toNat
  let sd := Nat.sqrt q.den
  if 0 ≤ q.num ∧ sn * sn = q.num.toNat ∧ sd * sd = q.den then (sn : ℚ) / (sd : ℚ)
  else 0

/-- Sum of squares of the entries of a vector (the `norm1`/`norm2`
accumulators of `cosineSimilarity` in the source). -/
def sumSquares (v : List ℚ) : ℚ :=
  v.foldl (fun acc x => acc + x * x) 0

/-- Dot product accumulator of `cosineSimilarity` in the source. -/
def dotProduct (v1 v2 : List ℚ) : ℚ :=
  (v1.zip v2).foldl (fun acc p => acc + p.1 * p.2) 0

/-- Function `cosineSimilarity` (src/src/ch06/simple-vector-store.ts, lines 28-45).
The source throws on a length mismatch, then computes
`dot / (Math.sqrt(norm1) * Math.sqrt(norm2))`, returning `0` when the
denominator is `0`.  Over the reals `√norm1 · √norm2 = 0` holds exactly when
`norm1 = 0` or `norm2 = 0` (norms are sums of squares, hence nonnegative), so
the guard is modelled by that equivalent rational condition.  The source
error message is the Chinese string for "vector dimension mismatch". -/
def cosineSimilarity (vec1 vec2 : List ℚ) : Except String ℚ :=
  if vec1.length ≠ vec2.length then .error "vector dimension mismatch"
  else
    let dp := dotProduct vec1 vec2
    let norm1 := sumSquares vec1
    let norm2 := sumSquares vec2
    if norm1 = 0 ∨ norm2 = 0 then .ok 0
    else .ok (dp / (ratSqrt norm1 * ratSqrt norm2))

/-- Stable descending sort by a rational score, modelling
`results.sort((a, b) => b.score - a.score)` (stable per ECMAScript 2019). -/
def sortByScoreDesc (f : α → ℚ) (l : List α) : List α :=
  List.insertionSort (fun x y => f y ≤ f x) l

/-- Scoring pass of `similaritySearch` (lines 98-102 of the source): map every
stored document to `{text, score, meta}` with the cosine similarity against
the query vector.  A dimension mismatch anywhere propagates as the thrown
error does in the source. -/
def scoreAll (docs : List VectorDoc) (queryVector : List ℚ) :
    Except String (List SearchResult) :=
  docs.mapM fun doc =>
    (cosineSimilarity queryVector doc.vector).map fun s =>
      { text := doc.text, score := s, meta := doc.meta }

/-- Method `SimpleVectorStore.similaritySearch` (lines 90-106).  The query-embedding
provider call is modelled by passing the embedded query vector directly. -/
def similaritySearch (docs : List VectorDoc) (queryVector : List ℚ) (k : Nat) :
    Except String (List SearchResult) :=
  (scoreAll docs queryVector).map fun results =>
    (sortByScoreDesc SearchResult.score results).take k

/-- Method `SimpleVectorStore.similaritySearchWithFilter` (lines 115-138): restrict
the candidate documents with the metadata predicate, then score, sort and
truncate exactly as `similaritySearch` does. -/
def similaritySearchWithFilter (docs : List VectorDoc) (queryVector : List ℚ)
    (k : Nat) (filt : Option (MetaVal → Bool)) :
    Except String (List SearchResult) :=
  let filteredDocs :=
    match filt with
    | none => docs
    | some f => docs.filter fun doc => f doc.meta
  (scoreAll filteredDocs queryVector).map fun results =>
    (sortByScoreDesc SearchResult.score results).take k

/-- Append loop of `SimpleVectorStore.addDocuments` (lines 72-79): for each
index `i` below `chunks.length`, push the record built from `chunks[i]` and
`vectors[i]`.  `vectors.getD i []` models the JavaScript index access; the
Embedding Provider contract returns one vector per text, so it is in range in
every use below. -/
def commitLoop (documents : List VectorDoc) (chunks : List Chunk)
    (vectors : List (List ℚ)) (i : Nat) : List VectorDoc :=
  if h : i < chunks.length then
    commitLoop
      (documents ++
        [{ id := (chunks.get ⟨i, h⟩).id, text := (chunks.get ⟨i, h⟩).text,
           vector := vectors.getD i [], meta := (chunks.get ⟨i, h⟩).meta }])
      chunks vectors (i + 1)
  else documents
termination_by chunks.length - i

/-- Method `SimpleVectorStore.addDocuments` (lines 64-82).  The batched Embedding
Provider call `embedDocuments(texts)` is modelled by its outcome
`embedResult`; when it rejects, the error propagates before any push
executes, and when it resolves, the commit loop appends every chunk. -/
def addDocuments (documents : List VectorDoc) (chunks : List Chunk)
    (embedResult : Except String (List (List ℚ))) :
    Except String (List VectorDoc) :=
  match embedResult with
  | .error e => .error e
  | .ok vectors => .ok (commitLoop documents chunks vectors 0)

/-- One redundancy step of `maxMarginalRelevanceSearch` (lines 170-189 of
the source): look up the vectors of the candidate and of the selected result in the
document list by text equality (`documents.find(d => d.text === ...)`) and
fold the running maximum with their cosine similarity; a failed lookup keeps
the accumulator, as the `if (candidateDoc && selectedDoc)` guard does. -/
def mmrStep (docs : List VectorDoc) (candidate : SearchResult) (mx : ℚ)
    (sel : SearchResult) : Except String ℚ :=
  match docs.find? (fun d => d.text == candidate.text),
        docs.find? (fun d => d.text == sel.text) with
  | some cd, some sd =>
      (cosineSimilarity cd.vector sd.vector).map fun sim => max mx sim
  | _, _ => .ok mx

/-- Per-candidate MMR score (lines 164-198 of the source):
`lambda * relevance - (1 - lambda) * maxSimilarity`, where the relevance is
the similarity score of the candidate and `maxSimilarity` folds `mmrStep` over the
already-selected results starting from 0. -/
def mmrScoreOf (docs : List VectorDoc) (lam : ℚ) (selected : List SearchResult)
    (candidate : SearchResult) : Except String ℚ := do
  let maxSimilarity ← selected.foldlM (mmrStep docs candidate) 0
  pure (lam * candidate.score - (1 - lam) * maxSimilarity)

/-- One argmax pass of the MMR loop (lines 160-198): scan the remaining
candidates, keeping the first candidate whose score strictly exceeds the best
so far (`mmrScore > bestScore`), and return the winner together with the rest
of the pool in order (`remaining.splice(bestIdx, 1)`).  `bestScore` starts at
`-Infinity` in the source, so the first candidate always becomes the initial
best; the wrapper below seeds the scan accordingly. -/
def pickBestM (score : SearchResult → Except String ℚ) :
    SearchResult → ℚ → List SearchResult →
    Except String (SearchResult × List SearchResult)
  | best, _, [] => .ok (best, [])
  | best, bestScore, c :: cs =>
    match score c with
    | .error e => .error e
    | .ok s =>
      if bestScore < s then
        match pickBestM score c s cs with
        | .error e => .error e
        | .ok (b, rest) => .ok (b, best :: rest)
      else
        match pickBestM score best bestScore cs with
        | .error e => .error e
        | .ok (b, rest) => .ok (b, c :: rest)

theorem pickBestM_length (score : SearchResult → Except String ℚ) :
    ∀ (best : SearchResult) (bs : ℚ) (l : List SearchResult)
      (b : SearchResult) (rest : List SearchResult),
      pickBestM score best bs l = .ok (b, rest) → rest.length = l.length := by
  intro best bs l
  induction l generalizing best bs with
  | nil => intro b rest h; simp [pickBestM] at h; simp [h.2]
  | cons c cs ih =>
    intro b rest h
    simp only [pickBestM] at h
    cases hs : score c with
    | error e => rw [hs] at h; exact absurd h (by simp)
    | ok s =>
      rw [hs] at h
      dsimp only at h
      by_cases hlt : bs < s
      · rw [if_pos hlt] at h
        cases hrec : pickBestM score c s cs with
        | error e => rw [hrec] at h; exact absurd h (by simp)
        | ok p =>
          rw [hrec] at h
          dsimp only at h
          cases h
          simpa using ih c s p.1 p.2 hrec
      · rw [if_neg hlt] at h
        cases hrec : pickBestM score best bs cs with
        | error e => rw [hrec] at h; exact absurd h (by simp)
        | ok p =>
          rw [hrec] at h
          dsimp only at h
          cases h
          simpa using ih best bs p.1 p.2 hrec

/-- Selection loop of `maxMarginalRelevanceSearch` (lines 159-203): while
fewer than `k` results are selected and the pool is nonempty, score every
remaining candidate, move the best one from the pool to the selection. -/
def mmrLoop (docs : List VectorDoc) (k : Nat) (lam : ℚ) :
    List SearchResult → List SearchResult → Except String (List SearchResult)
  | selected, remaining =>
    if selected.length < k then
      match remaining with
      | [] => .ok selected
      | c :: cs =>
        match mmrScoreOf docs lam selected c with
        | .error e => .error e
        | .ok s0 =>
          match hp : pickBestM (mmrScoreOf docs lam selected) c s0 cs with
          | .error e => .error e
          | .ok (best, rest) => mmrLoop docs k lam (selected ++ [best]) rest
    else .ok selected
termination_by _ remaining => remaining.length
decreasing_by
  have hlen := pickBestM_length (mmrScoreOf docs lam selected) c s0 cs best rest hp
  simp only [List.length_cons]
  omega

/-- Method `SimpleVectorStore.maxMarginalRelevanceSearch` (lines 147-206): take a
`3·k` candidate pool from plain similarity search, then run the MMR loop.
(The source also re-embeds the query here; that vector is never used.) -/
def maxMarginalRelevanceSearch (docs : List VectorDoc) (queryVector : List ℚ)
    (k : Nat) (lam : ℚ) : Except String (List SearchResult) := do
  let candidates ← similaritySearch docs queryVector (k * 3)
  mmrLoop docs k lam [] candidates

/-- ASCII whitespace recognised by the JavaScript regex class `\s` (the
Unicode members are never used by inputs considered here). -/
def isJsWhitespaceChar (c : Char) : Bool :=
  c = ' ' || c = '\t' || c = '\n' || c = '\r' || c = '\x0b' || c = '\x0c'

/-- Worker for `jsSplitWs`: `none` means the scanner is inside a whitespace
run, `some cur` means it is building a token whose characters are held in
reverse. -/
def jsSplitWsGo : List Char → Option (List Char) → List String
  | [], none => [""]
  | [], some cur => [String.mk cur.reverse]
  | c :: cs, none =>
    if isJsWhitespaceChar c then jsSplitWsGo cs none
    else jsSplitWsGo cs (some [c])
  | c :: cs, some cur =>
    if isJsWhitespaceChar c then String.mk cur.reverse :: jsSplitWsGo cs none
    else jsSplitWsGo cs (some (c :: cur))

/-- JavaScript `str.split(/\s+/)`: pieces between maximal whitespace runs.
A run at the start contributes a leading empty piece, a run at the end a
trailing one, and the empty string splits to `[""]` — exactly the ECMAScript
`String.prototype.split` behaviour for this separator. -/
def jsSplitWs (s : String) : List String :=
  jsSplitWsGo s.toList (some [])

/-- The regular-expression fragment exercised by the keyword scorer: a
pattern is a sequence of single-character matchers. -/
inductive RegexAtom where
  | lit (c : Char)
  | dot
deriving DecidableEq, Repr

/-- Characters that are metacharacters of JavaScript regular expressions. -/
def isRegexMetachar (c : Char) : Bool :=
  c = '(' || c = ')' || c = '[' || c = ']' || c = '\x7b' || c = '\x7d' ||
  c = '*' || c = '+' || c = '?' || c = '^' || c = '$' || c = '|' || c = '\\'

/-- Model of `new RegExp(term, "g")` on the pattern fragment reached in this
file: a pattern made of plain literal characters and `.` compiles to a
sequence of single-character matchers; a pattern containing any other
metacharacter is outside the modelled fragment and is treated as a
compilation failure.  On the concrete patterns used in the theorems below
this is exact: JavaScript throws a `SyntaxError` for `new RegExp("(")` (and
for lone `"["` or `"*"`), accepts the empty pattern, and compiles `"."` to
an any-character matcher. -/
def compileRegexFragment (pattern : String) : Except String (List RegexAtom) :=
  pattern.toList.mapM fun c =>
    if c = '.' then .ok .dot
    else if isRegexMetachar c then
      .error "SyntaxError: invalid regular expression"
    else .ok (.lit c)

/-- A single atom against a single character; `.` matches everything except a
line terminator. -/
def atomMatchesChar : RegexAtom → Char → Bool
  | .lit a, c => a = c
  | .dot, c => c ≠ '\n'

/-- Whether the pattern matches a prefix of the character list (consuming
exactly `pat.length` characters). -/
def patMatchesAt : List RegexAtom → List Char → Bool
  | [], _ => true
  | _ :: _, [] => false
  | a :: ps, c :: cs => atomMatchesChar a c && patMatchesAt ps cs

/-- Number of matches collected by `text.match(re)` for a global regex on
this fragment: scan left to right; a match consumes its length (non
overlapping), an empty match advances one position, and the position past the
last character is also tried — so the empty pattern yields `length + 1`
matches, as `"ab".match(/(?:)/g)` does in JavaScript. -/
def countGlobalMatches (pat : List RegexAtom) : List Char → Nat
  | [] => if patMatchesAt pat [] then 1 else 0
  | c :: cs =>
    if patMatchesAt pat (c :: cs) then
      match pat with
      | [] => 1 + countGlobalMatches pat cs
      | _ :: _ => 1 + countGlobalMatches pat (cs.drop (pat.length - 1))
    else countGlobalMatches pat cs
termination_by l => l.length
decreasing_by
  all_goals simp only [List.length_cons]
  · omega
  · have := List.length_drop (pat.length - 1) cs; omega
  · omega

/-- Per-document score of `KeywordSearch.search` (lines 38-55): for each
query term, build a global regex from the raw term and add the number of
matches in the lowercased text (a `null` result of `match` adds nothing,
exactly like a zero count). -/
def keywordDocScore (queryTerms : List String) (text : String) :
    Except String ℚ :=
  let lowered := text.toLower
  queryTerms.foldlM
    (fun score term =>
      (compileRegexFragment term).map fun pat =>
        score + (countGlobalMatches pat lowered.toList : ℚ))
    0

/-- Method `KeywordSearch.search` (src/unnamed/part_002, lines 31-62): lowercase and
whitespace-split the query, score every stored document, drop zero scores,
sort descending by score (stable) and keep the first `k`. -/
def keywordSearch (docs : List Chunk) (query : String) (k : Nat) :
    Except String (List SearchResult) := do
  let queryTerms := jsSplitWs query.toLower
  let results ← docs.mapM fun doc => do
    let score ← keywordDocScore queryTerms doc.text
    pure { text := doc.text, score := score, meta := doc.meta : SearchResult }
  pure ((sortByScoreDesc SearchResult.score
    (results.filter fun r => decide (0 < r.score))).take k)

/-- Min-max normalization of `hybridSearch` (lines 106-117).  On a nonempty
list with zero range every score becomes `1`; on the empty list the source
computes `range = -Infinity - Infinity ≠ 0` and maps over an empty array, so
the result is again empty. -/
def normalizeScores (scores : List ℚ) : List ℚ :=
  match scores with
  | [] => []
  | s :: rest =>
    let mx := rest.foldl max s
    let mn := rest.foldl min s
    if mx - mn = 0 then (s :: rest).map fun _ => 1
    else (s :: rest).map fun x => (x - mn) / (mx - mn)

/-- Value stored in the `combinedResults` map of `hybridSearch`. -/
structure CombinedEntry where
  text : String
  score : ℚ
  sources : List String
  meta : MetaVal
deriving DecidableEq, Repr, Inhabited

/-- Model of `Map.set` on an insertion-ordered association list: replacing the value
of an existing key keeps its position, a new key is appended — the JavaScript
`Map` iteration-order semantics. -/
def mapSet : List (String × CombinedEntry) → String → CombinedEntry →
    List (String × CombinedEntry)
  | [], key, v => [(key, v)]
  | (k0, v0) :: rest, key, v =>
    if k0 = key then (k0, v) :: rest else (k0, v0) :: mapSet rest key v

/-- Model of `Map.get` on the association list. -/
def mapGet (m : List (String × CombinedEntry)) (key : String) :
    Option CombinedEntry :=
  (m.find? fun p => p.1 == key).map fun p => p.2

/-- Method `HybridSearchEngine.hybridSearch` (src/unnamed/part_002, lines 94-170):
retrieve `2·k` candidates from each sub-search, min-max normalize both score
lists, merge into an insertion-ordered map keyed by the first 100 characters
of the document text (`result.text.slice(0, 100)`), weighting vector scores
by `vectorWeight` and keyword scores by `1 - vectorWeight`, then sort the
map values by combined score and keep the first `k`. -/
def hybridSearch (vectorDocs : List VectorDoc) (keywordDocs : List Chunk)
    (queryVector : List ℚ) (query : String) (k : Nat) (vectorWeight : ℚ) :
    Except String (List HybridResult) := do
  let vectorResults ← similaritySearch vectorDocs queryVector (k * 2)
  let keywordResults ← keywordSearch keywordDocs query (k * 2)
  let normalizedVectorScores := normalizeScores (vectorResults.map (·.score))
  let normalizedKeywordScores := normalizeScores (keywordResults.map (·.score))
  let afterVector := (vectorResults.zip normalizedVectorScores).foldl
    (fun m rp =>
      mapSet m (rp.1.text.take 100)
        { text := rp.1.text, score := rp.2 * vectorWeight,
          sources := ["vector"], meta := rp.1.meta })
    []
  let combinedResults := (keywordResults.zip normalizedKeywordScores).foldl
    (fun m rp =>
      let key := rp.1.text.take 100
      match mapGet m key with
      | some existing =>
        mapSet m key
          { existing with
            score := existing.score + rp.2 * (1 - vectorWeight),
            sources := existing.sources ++ ["keyword"] }
      | none =>
        mapSet m key
          { text := rp.1.text, score := rp.2 * (1 - vectorWeight),
            sources := ["keyword"], meta := rp.1.meta })
    afterVector
  pure (((sortByScoreDesc CombinedEntry.score
      (combinedResults.map fun p => p.2)).take k).map fun e =>
    { text := e.text, score := e.score,
      source := String.intercalate "+" e.sources, meta := e.meta })

/-- The two sub-indexes owned by a `HybridSearchEngine`. -/
structure HybridEngineState where
  vectorDocs : List VectorDoc
  keywordDocs : List Chunk
deriving DecidableEq, Repr

/-- Method `HybridSearchEngine.addDocuments` (lines 80-85): forward the batch to
`SimpleVectorStore.addDocuments` (which appends) and then to
`KeywordSearch.addDocuments`, whose body `this.documents = docs` replaces the
stored list.  A failed embedding call rejects before the keyword index is
touched. -/
def engineAddDocuments (st : HybridEngineState) (chunks : List Chunk)
    (embedResult : Except String (List (List ℚ))) :
    Except String HybridEngineState :=
  match addDocuments st.vectorDocs chunks embedResult with
  | .error e => .error e
  | .ok v => .ok { vectorDocs := v, keywordDocs := chunks }

/-- Modelled from the spec: "for each document, sum the count of literal
(non-regex-interpreted) occurrences of each query term in the lowercased
text" — the literal, non-overlapping substring count a correct keyword scorer
would use in place of the unescaped regex.  Worker: scan positions left to
right, a found occurrence consumes its length. -/
def specLiteralCountGo (t : List Char) : List Char → Nat
  | [] => 0
  | c :: cs =>
    if t.isPrefixOf (c :: cs) then
      1 + specLiteralCountGo t (cs.drop (t.length - 1))
    else specLiteralCountGo t cs
termination_by l => l.length
decreasing_by
  all_goals simp only [List.length_cons]
  · have := List.length_drop (t.length - 1) cs; omega
  · omega

/-- Modelled from the spec (see `specLiteralCountGo`); the empty term has no
literal occurrence. -/
def specLiteralCount (term text : String) : Nat :=
  if term.toList = [] then 0 else specLiteralCountGo term.toList text.toList

/-! ### Helper lemmas about the monadic and sorting plumbing -/

theorem except_bind_ok {α β : Type} (x : Except String α) (f : α → Except String β) (b : β) :
    (x >>= f) = .ok b ↔ ∃ a, x = .ok a ∧ f a = .ok b := by
  cases x <;> simp [Bind.bind, Except.bind]

theorem except_map_ok {α β : Type} (g : α → β) (x : Except String α) (b : β) :
    Except.map g x = .ok b ↔ ∃ a, x = .ok a ∧ g a = b := by
  cases x <;> simp [Except.map, eq_comm]

theorem except_pure_eq {α : Type} (b : α) : (pure b : Except String α) = .ok b := rfl

theorem mapM_ok_length {α β : Type} (f : α → Except String β) :
    ∀ (l : List α) (rs : List β), l.mapM f = .ok rs → rs.length = l.length := by
  intro l
  induction l with
  | nil =>
    intro rs h
    rw [List.mapM_nil] at h
    cases h
    rfl
  | cons a t ih =>
    intro rs h
    rw [List.mapM_cons] at h
    rw [except_bind_ok] at h
    obtain ⟨x, hx, h⟩ := h
    rw [except_bind_ok] at h
    obtain ⟨xs, hxs, h⟩ := h
    rw [except_pure_eq] at h
    cases h
    simp [ih xs hxs]

theorem mapM_ok_mem {α β : Type} (f : α → Except String β) :
    ∀ (l : List α) (rs : List β), l.mapM f = .ok rs →
      ∀ r ∈ rs, ∃ a ∈ l, f a = .ok r := by
  intro l
  induction l with
  | nil =>
    intro rs h
    rw [List.mapM_nil] at h
    cases h
    simp
  | cons a t ih =>
    intro rs h
    rw [List.mapM_cons] at h
    rw [except_bind_ok] at h
    obtain ⟨x, hx, h⟩ := h
    rw [except_bind_ok] at h
    obtain ⟨xs, hxs, h⟩ := h
    rw [except_pure_eq] at h
    cases h
    intro r hr
    rcases List.mem_cons.mp hr with hr | hr
    · exact ⟨a, List.mem_cons_self a t, hr ▸ hx⟩
    · obtain ⟨a2, ha2, hfa2⟩ := ih xs hxs r hr
      exact ⟨a2, List.mem_cons_of_mem a ha2, hfa2⟩

theorem sortByScoreDesc_sorted {α : Type} (f : α → ℚ) (l : List α) :
    List.Sorted (fun x y => f y ≤ f x) (sortByScoreDesc f l) := by
  haveI : IsTotal α (fun x y : α => f y ≤ f x) := ⟨fun a b => le_total (f b) (f a)⟩
  haveI : IsTrans α (fun x y : α => f y ≤ f x) :=
    ⟨fun a b c hab hbc => le_trans hbc hab⟩
  exact List.sorted_insertionSort _ _

theorem sortByScoreDesc_perm {α : Type} (f : α → ℚ) (l : List α) :
    (sortByScoreDesc f l).Perm l :=
  List.perm_insertionSort _ l

/-- Stability kernel: ordered insertion passes over strictly greater scores
only, so the sublist of any fixed score value is preserved (with the inserted
element, when it has that score, landing in front of its equals). -/
theorem filter_orderedInsert_score {α : Type} (f : α → ℚ) (s : ℚ) (a : α) :
    ∀ l : List α,
      (List.orderedInsert (fun x y => f y ≤ f x) a l).filter
          (fun x => decide (f x = s)) =
        if f a = s then a :: l.filter (fun x => decide (f x = s))
        else l.filter (fun x => decide (f x = s)) := by
  intro l
  induction l with
  | nil => by_cases h : f a = s <;> simp [List.orderedInsert, List.filter_cons, h]
  | cons b t ih =>
    by_cases hle : f b ≤ f a
    · rw [show List.orderedInsert (fun x y => f y ≤ f x) a (b :: t) = a :: b :: t from
        if_pos hle]
      by_cases ha : f a = s <;> simp [List.filter_cons, ha]
    · rw [show List.orderedInsert (fun x y => f y ≤ f x) a (b :: t) =
        b :: List.orderedInsert (fun x y => f y ≤ f x) a t from if_neg hle]
      by_cases ha : f a = s
      · have hbs : ¬ (f b = s) := fun hbs => hle (le_of_eq (hbs.trans ha.symm))
        simp [List.filter_cons, hbs, ih, ha]
      · simp [List.filter_cons, ih, ha]

/-- The stable descending sort preserves the relative order of equal-score
elements: filtering either list to any fixed score value gives the same
sequence. -/
theorem sortByScoreDesc_filter_score {α : Type} (f : α → ℚ) (s : ℚ) (l : List α) :
    (sortByScoreDesc f l).filter (fun x => decide (f x = s)) =
      l.filter (fun x => decide (f x = s)) := by
  induction l with
  | nil => rfl
  | cons a t ih =>
    have ih2 : (List.insertionSort (fun x y => f y ≤ f x) t).filter
        (fun x => decide (f x = s)) = t.filter (fun x => decide (f x = s)) := ih
    show (List.orderedInsert _ a (List.insertionSort _ t)).filter _ = _
    rw [filter_orderedInsert_score]
    by_cases h : f a = s <;> simp [List.filter_cons, h, ih2]

/-! ### Claim C4: top-k contract of `similaritySearch` -/

/-- Concrete store for the C4 witness: two documents tie at score 1 with a
zero-scored one between them, exposing tie stability. -/
def simDocsC4 : List VectorDoc :=
  [⟨"d1", "t1", [1, 0], "m1"⟩, ⟨"d2", "t2", [0, 1], "m2"⟩,
   ⟨"d3", "t3", [1, 0], "m3"⟩]

/-- The scored list `scoreAll simDocsC4 [1, 0]` produces. -/
def simScoredC4 : List SearchResult :=
  [⟨"t1", 1, "m1"⟩, ⟨"t2", 0, "m2"⟩, ⟨"t3", 1, "m3"⟩]

/-- C4: `similaritySearch(query, k)` satisfies the top-k contract for every
store state and every `k ≥ 0`: whenever the scoring pass succeeds with the
in-insertion-order score list `scored` (one entry per stored document), the
result is the first `k` entries of the stable descending sort of `scored`,
hence has at most `k` entries, is ordered descending by cosine-similarity
score, and equal-score entries keep their original insertion order (the
filter to any fixed score value is unchanged by the sort). -/
theorem similaritySearch_topk_contract (docs : List VectorDoc)
    (queryVector : List ℚ) (k : Nat) (scored : List SearchResult)
    (h : scoreAll docs queryVector = .ok scored) :
    similaritySearch docs queryVector k =
        .ok ((sortByScoreDesc SearchResult.score scored).take k)
    ∧ ((sortByScoreDesc SearchResult.score scored).take k).length ≤ k
    ∧ List.Pairwise (fun a b => b.score ≤ a.score)
        ((sortByScoreDesc SearchResult.score scored).take k)
    ∧ (sortByScoreDesc SearchResult.score scored).Perm scored
    ∧ scored.length = docs.length
    ∧ ∀ s : ℚ,
        (sortByScoreDesc SearchResult.score scored).filter
            (fun r => decide (r.score = s)) =
          scored.filter (fun r => decide (r.score = s)) := by
  refine ⟨?_, ?_, ?_, ?_, ?_, ?_⟩
  · rw [similaritySearch, h]; rfl
  · simp [List.length_take]
  · exact (sortByScoreDesc_sorted SearchResult.score scored).sublist
      (List.take_sublist k _)
  · exact sortByScoreDesc_perm SearchResult.score scored
  · exact mapM_ok_length _ docs scored h
  · exact fun s => sortByScoreDesc_filter_score SearchResult.score s scored

/-- Witness for C4 at a concrete store: the two score-1 documents appear in
insertion order ahead of the score-0 one, and the contract conjuncts hold. -/
theorem similaritySearch_topk_contract_witness :
    scoreAll simDocsC4 [1, 0] = .ok simScoredC4
    ∧ similaritySearch simDocsC4 [1, 0] 2 =
        .ok ((sortByScoreDesc SearchResult.score simScoredC4).take 2)
    ∧ ((sortByScoreDesc SearchResult.score simScoredC4).take 2).length ≤ 2
    ∧ List.Pairwise (fun a b => b.score ≤ a.score)
        ((sortByScoreDesc SearchResult.score simScoredC4).take 2)
    ∧ (sortByScoreDesc SearchResult.score simScoredC4).Perm simScoredC4
    ∧ simScoredC4.length = simDocsC4.length
    ∧ (sortByScoreDesc SearchResult.score simScoredC4).filter
        (fun r => decide (r.score = 1)) =
        simScoredC4.filter (fun r => decide (r.score = 1)) := by
  have h : scoreAll simDocsC4 [1, 0] = .ok simScoredC4 := by
    with_unfolding_all decide
  have main := similaritySearch_topk_contract simDocsC4 [1, 0] 2 simScoredC4 h
  exact ⟨h, main.1, main.2.1, main.2.2.1, main.2.2.2.1, main.2.2.2.2.1,
    main.2.2.2.2.2 1⟩

/-! ### Claim C8: totality and guards of `cosineSimilarity` -/

/-- C8: `cosineSimilarity` is total on equal-length vectors (it always
returns a value, never dividing by zero thanks to the zero-denominator
guard), returns exactly 0 when either vector has zero norm, and fails fast
with the dimension-mismatch error on unequal lengths instead of truncating
or padding. -/
theorem cosineSimilarity_total_and_guards (v1 v2 : List ℚ) :
    (v1.length = v2.length →
      (∃ q, cosineSimilarity v1 v2 = .ok q)
      ∧ (sumSquares v1 = 0 ∨ sumSquares v2 = 0 →
          cosineSimilarity v1 v2 = .ok 0))
    ∧ (v1.length ≠ v2.length →
      cosineSimilarity v1 v2 = .error "vector dimension mismatch") := by
  constructor
  · intro hlen
    constructor
    · by_cases h0 : sumSquares v1 = 0 ∨ sumSquares v2 = 0
      · exact ⟨0, by simp [cosineSimilarity, hlen, h0]⟩
      · refine ⟨dotProduct v1 v2 / (ratSqrt (sumSquares v1) * ratSqrt (sumSquares v2)), ?_⟩
        simp [cosineSimilarity, hlen, h0]
    · intro h0
      simp [cosineSimilarity, hlen, h0]
  · intro hlen
    simp [cosineSimilarity, hlen]

/-- Witness for C8: the zero vector against `[1, 2]` scores exactly 0, the
same pair is inside the total equal-length domain, and `[1]` against `[1, 2]`
is rejected with the dimension-mismatch error. -/
theorem cosineSimilarity_total_and_guards_witness :
    (([0, 0] : List ℚ).length = ([1, 2] : List ℚ).length
      ∧ cosineSimilarity [0, 0] [1, 2] = .ok 0
      ∧ ∃ q, cosineSimilarity [0, 0] [1, 2] = .ok q)
    ∧ (([1] : List ℚ).length ≠ ([1, 2] : List ℚ).length
      ∧ cosineSimilarity [1] [1, 2] = .error "vector dimension mismatch") := by
  have h1 := cosineSimilarity_total_and_guards [0, 0] [1, 2]
  have h2 := cosineSimilarity_total_and_guards [1] [1, 2]
  refine ⟨⟨by decide, ?_, ?_⟩, by decide, ?_⟩
  · exact (h1.1 (by decide)).2 (Or.inl (by with_unfolding_all decide))
  · exact (h1.1 (by decide)).1
  · exact h2.2 (by decide)

/-! ### Claim C9: `similaritySearchWithFilter` restricts candidates -/

/-- C9: every result of `similaritySearchWithFilter` satisfies the supplied
metadata predicate (the candidate set is filtered before scoring), and a
predicate matching no stored document yields the empty result list rather
than an error. -/
theorem similaritySearchWithFilter_respects_filter (docs : List VectorDoc)
    (queryVector : List ℚ) (k : Nat) (f : MetaVal → Bool)
    (out : List SearchResult)
    (h : similaritySearchWithFilter docs queryVector k (some f) = .ok out) :
    (∀ r ∈ out, f r.meta = true)
    ∧ ((∀ d ∈ docs, f d.meta = false) → out = []) := by
  simp only [similaritySearchWithFilter] at h
  rw [except_map_ok] at h
  obtain ⟨scored, hscored, hout⟩ := h
  constructor
  · intro r hr
    rw [← hout] at hr
    have hr2 : r ∈ sortByScoreDesc SearchResult.score scored :=
      (List.take_sublist k _).subset hr
    have hr3 : r ∈ scored :=
      (sortByScoreDesc_perm SearchResult.score scored).mem_iff.mp hr2
    obtain ⟨d, hd, hfd⟩ := mapM_ok_mem _ _ scored hscored r hr3
    rw [except_map_ok] at hfd
    obtain ⟨s, hs, hmk⟩ := hfd
    rw [← hmk]
    exact (List.mem_filter.mp hd).2
  · intro hall
    have hfil : docs.filter (fun doc => f doc.meta) = [] := by
      rw [List.filter_eq_nil_iff]
      intro d hd
      simp [hall d hd]
    rw [hfil] at hscored
    rw [scoreAll, List.mapM_nil, except_pure_eq] at hscored
    cases hscored
    rw [← hout]
    simp [sortByScoreDesc]

/-- Concrete store for the C9 witness: one document tagged `"keep"`, one
tagged `"drop"`. -/
def fDocsC9 : List VectorDoc :=
  [⟨"d1", "t1", [1, 0], "keep"⟩, ⟨"d2", "t2", [0, 1], "drop"⟩]

/-- Witness for C9: the keep-only predicate returns exactly the kept
document (whose metadata satisfies it), and the reject-all predicate yields
the empty list without an error. -/
theorem similaritySearchWithFilter_respects_filter_witness :
    similaritySearchWithFilter fDocsC9 [1, 0] 5 (some fun m => m == "keep") =
        .ok [⟨"t1", 1, "keep"⟩]
    ∧ (∀ r ∈ ([⟨"t1", 1, "keep"⟩] : List SearchResult),
        (fun m : MetaVal => m == "keep") r.meta = true)
    ∧ similaritySearchWithFilter fDocsC9 [1, 0] 5 (some fun _ => false) =
        .ok [] := by
  have heval : similaritySearchWithFilter fDocsC9 [1, 0] 5
      (some fun m => m == "keep") = .ok [⟨"t1", 1, "keep"⟩] := by
    with_unfolding_all decide
  have h := similaritySearchWithFilter_respects_filter fDocsC9 [1, 0] 5
    (fun m => m == "keep") [⟨"t1", 1, "keep"⟩] heval
  have heval2 : similaritySearchWithFilter fDocsC9 [1, 0] 5
      (some fun _ => false) = .ok [] := by
    with_unfolding_all decide
  exact ⟨heval, h.1, heval2⟩

/-! ### Claim C7: all-or-nothing ingestion -/

/-- Record built by the push inside `addDocuments` for one chunk/vector
pair. -/
def chunkToVectorDoc (p : Chunk × List ℚ) : VectorDoc :=
  { id := p.1.id, text := p.1.text, vector := p.2, meta := p.1.meta }

/-- The commit loop appends exactly the chunk records paired with their
vectors, in order, when the provider returned one vector per chunk. -/
theorem commitLoop_eq (chunks : List Chunk) (vectors : List (List ℚ))
    (hlen : vectors.length = chunks.length) :
    ∀ (i : Nat) (documents : List VectorDoc),
      commitLoop documents chunks vectors i =
        documents ++
          ((chunks.drop i).zip (vectors.drop i)).map chunkToVectorDoc := by
  suffices H : ∀ (n i : Nat), chunks.length - i = n → ∀ documents,
      commitLoop documents chunks vectors i =
        documents ++
          ((chunks.drop i).zip (vectors.drop i)).map chunkToVectorDoc by
    intro i documents
    exact H (chunks.length - i) i rfl documents
  intro n
  induction n with
  | zero =>
    intro i hi documents
    rw [commitLoop, dif_neg (by omega)]
    have hc : chunks.drop i = [] := List.drop_eq_nil_of_le (by omega)
    simp [hc]
  | succ n ih =>
    intro i hi documents
    have hlt : i < chunks.length := by omega
    have hltv : i < vectors.length := by omega
    rw [commitLoop, dif_pos hlt]
    rw [ih (i + 1) (by omega)]
    have hc : chunks.drop i = chunks.get ⟨i, hlt⟩ :: chunks.drop (i + 1) := by
      rw [List.drop_eq_getElem_cons hlt]
      simp [List.get_eq_getElem]
    have hv : vectors.drop i = vectors.getD i [] :: vectors.drop (i + 1) := by
      rw [List.drop_eq_getElem_cons hltv]
      simp [List.getD_eq_getElem?_getD, List.getElem?_eq_getElem hltv]
    rw [hc, hv, List.zip_cons_cons, List.map_cons, List.append_assoc]
    rfl

/-- The success case of `addDocuments` as a closed formula (shared helper):
one vector per chunk commits the whole batch, appended in order. -/
theorem addDocuments_ok_eq (documents : List VectorDoc) (chunks : List Chunk)
    (vectors : List (List ℚ)) (hlen : vectors.length = chunks.length) :
    addDocuments documents chunks (.ok vectors) =
      .ok (documents ++ (chunks.zip vectors).map chunkToVectorDoc) := by
  rw [addDocuments]
  rw [commitLoop_eq chunks vectors hlen 0 documents]
  rfl

/-- C7: `addDocuments` is all-or-nothing.  If the batched provider call
`embedDocuments` fails, the error propagates to the caller and no document of
the batch is committed (the returned store is the error, so the previous
document list of the caller is untouched); if it succeeds with one vector per chunk, every
chunk of the batch is appended to the existing documents in insertion
order. -/
theorem addDocuments_all_or_nothing (documents : List VectorDoc)
    (chunks : List Chunk) (vectors : List (List ℚ)) (e : String)
    (hlen : vectors.length = chunks.length) :
    addDocuments documents chunks (.error e) = .error e
    ∧ addDocuments documents chunks (.ok vectors) =
        .ok (documents ++ (chunks.zip vectors).map chunkToVectorDoc) := by
  exact ⟨rfl, addDocuments_ok_eq documents chunks vectors hlen⟩

/-- Witness for C7: a two-chunk batch is either rejected wholesale or
appended in order after the pre-existing document. -/
theorem addDocuments_all_or_nothing_witness :
    addDocuments [⟨"d0", "t0", [1, 0], "m0"⟩]
        [⟨"c1", "u1", "n1"⟩, ⟨"c2", "u2", "n2"⟩] (.error "provider down") =
      .error "provider down"
    ∧ addDocuments [⟨"d0", "t0", [1, 0], "m0"⟩]
        [⟨"c1", "u1", "n1"⟩, ⟨"c2", "u2", "n2"⟩] (.ok [[0, 1], [1, 1]]) =
      .ok ([⟨"d0", "t0", [1, 0], "m0"⟩] ++
        ([(⟨"c1", "u1", "n1"⟩, [0, 1]), (⟨"c2", "u2", "n2"⟩, [1, 1])].map
          chunkToVectorDoc)) := by
  have h := addDocuments_all_or_nothing [⟨"d0", "t0", [1, 0], "m0"⟩]
    [⟨"c1", "u1", "n1"⟩, ⟨"c2", "u2", "n2"⟩] [[0, 1], [1, 1]] "provider down"
    (by decide)
  exact ⟨h.1, h.2⟩

/-! ### Claim C10: the keyword index replaces while the vector store appends -/

/-- C10: `KeywordSearch.addDocuments` overwrites the stored list
(`this.documents = docs`) while `SimpleVectorStore.addDocuments` appends, so
after `HybridSearchEngine.addDocuments` runs on batch `b1` and then batch
`b2`, the keyword index holds exactly `b2` while the vector store holds the
previous documents followed by `b1` and then `b2` — the two sub-indexes no
longer hold the same document set as soon as `b1` is nonempty. -/
theorem engineAddDocuments_keyword_replaces (st : HybridEngineState)
    (b1 b2 : List Chunk) (vs1 vs2 : List (List ℚ))
    (h1 : vs1.length = b1.length) (h2 : vs2.length = b2.length) :
    ∃ st1 st2,
      engineAddDocuments st b1 (.ok vs1) = .ok st1
      ∧ engineAddDocuments st1 b2 (.ok vs2) = .ok st2
      ∧ st1.keywordDocs = b1
      ∧ st2.keywordDocs = b2
      ∧ st2.vectorDocs =
          st.vectorDocs ++ (b1.zip vs1).map chunkToVectorDoc
            ++ (b2.zip vs2).map chunkToVectorDoc
      ∧ st2.vectorDocs.length =
          st.vectorDocs.length + b1.length + b2.length
      ∧ st2.keywordDocs.length = b2.length
      ∧ (b1 ≠ [] → st2.vectorDocs.length ≠ st2.keywordDocs.length) := by
  have ha1 := addDocuments_ok_eq st.vectorDocs b1 vs1 h1
  have ha2 := addDocuments_ok_eq
    (st.vectorDocs ++ (b1.zip vs1).map chunkToVectorDoc) b2 vs2 h2
  refine ⟨⟨st.vectorDocs ++ (b1.zip vs1).map chunkToVectorDoc, b1⟩,
    ⟨st.vectorDocs ++ (b1.zip vs1).map chunkToVectorDoc
      ++ (b2.zip vs2).map chunkToVectorDoc, b2⟩,
    ?_, ?_, rfl, rfl, rfl, ?_, rfl, ?_⟩
  · unfold engineAddDocuments
    rw [ha1]
  · unfold engineAddDocuments
    rw [ha2]
  · simp [List.length_zip, h1, h2]
    omega
  · intro hb1
    have hpos : 0 < b1.length := List.length_pos.mpr hb1
    simp only [List.length_append, List.length_map, List.length_zip, h1, h2,
      min_self]
    omega

/-- Witness for C10: starting from the empty engine, ingesting batch `[c1]`
and then batch `[c2]` leaves the keyword index with only `c2` while the
vector store holds both chunks. -/
theorem engineAddDocuments_keyword_replaces_witness :
    ∃ st1 st2,
      engineAddDocuments ⟨[], []⟩ [⟨"c1", "u1", "n1"⟩] (.ok [[1, 0]]) = .ok st1
      ∧ engineAddDocuments st1 [⟨"c2", "u2", "n2"⟩] (.ok [[0, 1]]) = .ok st2
      ∧ st1.keywordDocs = [⟨"c1", "u1", "n1"⟩]
      ∧ st2.keywordDocs = [⟨"c2", "u2", "n2"⟩]
      ∧ st2.vectorDocs =
          ([] : List VectorDoc) ++
            ([(⟨"c1", "u1", "n1"⟩, [1, 0])].map chunkToVectorDoc)
            ++ ([(⟨"c2", "u2", "n2"⟩, [0, 1])].map chunkToVectorDoc)
      ∧ st2.vectorDocs.length = ([] : List VectorDoc).length + 1 + 1
      ∧ st2.keywordDocs.length = 1
      ∧ ([⟨"c1", "u1", "n1"⟩] ≠ ([] : List Chunk) →
          st2.vectorDocs.length ≠ st2.keywordDocs.length) := by
  have h := engineAddDocuments_keyword_replaces ⟨[], []⟩
    [⟨"c1", "u1", "n1"⟩] [⟨"c2", "u2", "n2"⟩] [[1, 0]] [[0, 1]]
    (by decide) (by decide)
  obtain ⟨st1, st2, h⟩ := h
  exact ⟨st1, st2, h.1, h.2.1, h.2.2.1, h.2.2.2.1, h.2.2.2.2.1,
    h.2.2.2.2.2.1, h.2.2.2.2.2.2.1, h.2.2.2.2.2.2.2⟩

/-! ### Claims C1, C2, C3, C5: observed divergences of the source code -/

/-- C1 (code bug, flagged in the spec design notes): the keyword scorer
builds `new RegExp(term, "g")` from the raw term, so matching is not literal.
On the stored text `"ab"`: the query `"("` raises a regex syntax error
instead of scoring 0 occurrences of a literal `"("`; the query `"."` scores
2 (the regex dot matches both characters) although the literal substring
count of `"."` in `"ab"` is 0; a metacharacter-free query such as `"ab"`
does agree with the literal count. -/
theorem keywordSearch_regex_not_literal :
    keywordSearch [⟨"d1", "ab", "m"⟩] "(" 5 =
      .error "SyntaxError: invalid regular expression"
    ∧ keywordSearch [⟨"d1", "ab", "m"⟩] "." 5 = .ok [⟨"ab", 2, "m"⟩]
    ∧ specLiteralCount "." "ab" = 0
    ∧ keywordSearch [⟨"d1", "ab", "m"⟩] "ab" 5 = .ok [⟨"ab", 1, "m"⟩]
    ∧ specLiteralCount "ab" "ab" = 1 := by
  refine ⟨?_, ?_, ?_, ?_, ?_⟩ <;> with_unfolding_all decide

/-- C3 (code bug): an empty query does not yield an empty result set.
JavaScript splits `""` into `[""]`, the empty term compiles to the empty
regex, and `text.match(/(?:)/g)` finds `text.length + 1` empty matches, so
every stored document scores `length + 1 > 0`: the two stored documents come
back scored 4 and 3 (longest first) instead of being discarded with score
0. -/
theorem keywordSearch_empty_query_not_empty :
    keywordSearch [⟨"d1", "ab", "m1"⟩, ⟨"d2", "xyz", "m2"⟩] "" 5 =
      .ok [⟨"xyz", 4, "m2"⟩, ⟨"ab", 3, "m1"⟩] := by
  with_unfolding_all decide

/-- A 100-character stem shared by the two documents of the C2
counterexample. -/
def stem100 : String := String.mk (List.replicate 100 'x')

/-- Vector store of the C2 counterexample: two documents with distinct ids
`"a"`, `"b"` and distinct texts sharing their first 100 characters. -/
def vDocsC2 : List VectorDoc :=
  [⟨"a", stem100 ++ "1", [1, 0], "ma"⟩, ⟨"b", stem100 ++ "2", [0, 1], "mb"⟩]

/-- Keyword index of the C2 counterexample (same two documents). -/
def kDocsC2 : List Chunk :=
  [⟨"a", stem100 ++ "1", "ma"⟩, ⟨"b", stem100 ++ "2", "mb"⟩]

/-- C2 (code bug, flagged in the spec design notes): `hybridSearch` merges by
`text.slice(0, 100)` rather than by document id.  The store holds two
documents with different ids whose texts share a 100-character prefix; the
query vector ranks document `"a"` strictly first, yet the merge keys collide
and `Map.set` overwrites the entry of `"a"` with that of `"b"`, so the search
returns a single combined result (document `"b"` alone) instead of keeping
the two documents separate. -/
theorem hybridSearch_merges_distinct_ids :
    vDocsC2.map VectorDoc.id = ["a", "b"]
    ∧ similaritySearch vDocsC2 [1, 0] 2 =
        .ok [⟨stem100 ++ "1", 1, "ma"⟩, ⟨stem100 ++ "2", 0, "mb"⟩]
    ∧ hybridSearch vDocsC2 kDocsC2 [1, 0] "q" 2 (1 / 2) =
        .ok [⟨stem100 ++ "2", 0, "vector", "mb"⟩] := by
  refine ⟨by decide, ?_, ?_⟩ <;> with_unfolding_all decide

/-- Keyword index of the C5 counterexample. -/
def kDocsC5 : List Chunk :=
  [⟨"d1", "k k", "m1"⟩, ⟨"d2", "k", "m2"⟩, ⟨"d3", "z", "m3"⟩]

/-- Vector store of the C5 counterexample: the keyword-irrelevant document
`"z"` is the best vector match. -/
def vDocsC5 : List VectorDoc :=
  [⟨"d1", "k k", [0, 1], "m1"⟩, ⟨"d2", "k", [0, 1], "m2"⟩,
   ⟨"d3", "z", [1, 0], "m3"⟩]

/-- C5 (code bug): the fusion boundary fails at `vectorWeight = 0`.  The
keyword ranking for query `"k"` is `["k k", "k"]`, but `hybridSearch` with
`vectorWeight = 0` returns `["k k", "z"]`: min-max normalization maps the
lowest keyword score to 0, which ties it with the zero-weighted vector
entries, and the stable sort then prefers the earlier-inserted vector entry
`"z"` — a document with no keyword match outranks the second-best keyword
match, so the ranking does not reduce to the ranking of the Keyword Index itself. -/
theorem hybridSearch_weight_zero_not_keyword_ranking :
    keywordSearch kDocsC5 "k" 2 = .ok [⟨"k k", 2, "m1"⟩, ⟨"k", 1, "m2"⟩]
    ∧ hybridSearch vDocsC5 kDocsC5 [1, 0] "k" 2 0 =
        .ok [⟨"k k", 1, "vector+keyword", "m1"⟩, ⟨"z", 0, "vector", "m3"⟩] := by
  constructor <;> with_unfolding_all decide

/-! ### Claim C6: the MMR loop at `lambda = 1` and its size bound -/

theorem cosineSimilarity_ok_of_length_eq (v1 v2 : List ℚ)
    (h : v1.length = v2.length) : ∃ q, cosineSimilarity v1 v2 = .ok q := by
  by_cases h0 : sumSquares v1 = 0 ∨ sumSquares v2 = 0
  · exact ⟨0, by simp [cosineSimilarity, h, h0]⟩
  · exact ⟨dotProduct v1 v2 / (ratSqrt (sumSquares v1) * ratSqrt (sumSquares v2)),
      by simp [cosineSimilarity, h, h0]⟩

theorem mapM_ok_of_all {α β : Type} (f : α → Except String β) :
    ∀ l : List α, (∀ a ∈ l, ∃ b, f a = .ok b) → ∃ rs, l.mapM f = .ok rs := by
  intro l
  induction l with
  | nil => intro _; exact ⟨[], by rw [List.mapM_nil]; rfl⟩
  | cons a t ih =>
    intro hall
    obtain ⟨b, hb⟩ := hall a (List.mem_cons_self a t)
    obtain ⟨rs, hrs⟩ := ih fun x hx => hall x (List.mem_cons_of_mem a hx)
    refine ⟨b :: rs, ?_⟩
    rw [List.mapM_cons, except_bind_ok]
    exact ⟨b, hb, by rw [except_bind_ok]; exact ⟨rs, hrs, rfl⟩⟩

/-- A monadic fold whose step always succeeds succeeds itself. -/
theorem foldlM_ok_of_all {α : Type} (step : ℚ → α → Except String ℚ)
    (hstep : ∀ mx a, ∃ v, step mx a = .ok v) :
    ∀ (l : List α) (mx : ℚ), ∃ m, List.foldlM step mx l = .ok m := by
  intro l
  induction l with
  | nil => intro mx; exact ⟨mx, rfl⟩
  | cons a t ih =>
    intro mx
    obtain ⟨v, hv⟩ := hstep mx a
    obtain ⟨m, hm⟩ := ih v
    refine ⟨m, ?_⟩
    rw [List.foldlM_cons, hv]
    simpa [Bind.bind, Except.bind] using hm

/-- Under consistent stored dimensions every `mmrStep` succeeds: the vector
lookups either miss (keeping the accumulator) or hit two stored vectors of
equal length, whose cosine similarity is defined. -/
theorem mmrStep_ok (docs : List VectorDoc) (candidate : SearchResult)
    (hpair : ∀ d1 ∈ docs, ∀ d2 ∈ docs, d1.vector.length = d2.vector.length) :
    ∀ (mx : ℚ) (sel : SearchResult), ∃ v, mmrStep docs candidate mx sel = .ok v := by
  intro mx sel
  unfold mmrStep
  cases hcd : docs.find? (fun d => d.text == candidate.text) with
  | none => exact ⟨mx, rfl⟩
  | some cd =>
    cases hsd : docs.find? (fun d => d.text == sel.text) with
    | none => exact ⟨mx, rfl⟩
    | some sd =>
      obtain ⟨q, hq⟩ := cosineSimilarity_ok_of_length_eq cd.vector sd.vector
        (hpair cd (List.mem_of_find?_eq_some hcd) sd
          (List.mem_of_find?_eq_some hsd))
      refine ⟨max mx q, ?_⟩
      show (cosineSimilarity cd.vector sd.vector).map (fun sim => max mx sim) =
        Except.ok (max mx q)
      rw [hq]
      rfl

theorem mmrScoreOf_ok_of_dims (docs : List VectorDoc) (lam : ℚ)
    (hpair : ∀ d1 ∈ docs, ∀ d2 ∈ docs, d1.vector.length = d2.vector.length)
    (selected : List SearchResult) (candidate : SearchResult) :
    ∃ m, mmrScoreOf docs lam selected candidate =
      .ok (lam * candidate.score - (1 - lam) * m) := by
  obtain ⟨m, hm⟩ := foldlM_ok_of_all (mmrStep docs candidate)
    (mmrStep_ok docs candidate hpair) selected 0
  refine ⟨m, ?_⟩
  rw [mmrScoreOf]
  rw [hm]
  rfl

/-- At `lambda = 1` the MMR score of a candidate is exactly its similarity
score (the redundancy term is multiplied by zero). -/
theorem mmrScoreOf_one_eq (docs : List VectorDoc)
    (hpair : ∀ d1 ∈ docs, ∀ d2 ∈ docs, d1.vector.length = d2.vector.length)
    (selected : List SearchResult) (candidate : SearchResult) :
    mmrScoreOf docs 1 selected candidate = .ok candidate.score := by
  obtain ⟨m, hm⟩ := mmrScoreOf_ok_of_dims docs 1 hpair selected candidate
  rw [hm]
  norm_num

/-- When every remaining candidate scores at most the current best, the
argmax pass keeps the seed and returns the pool unchanged (the strict
comparison `mmrScore > bestScore` never fires). -/
theorem pickBestM_sorted_head (g : SearchResult → Except String ℚ)
    (hg : ∀ x, g x = .ok x.score) :
    ∀ (l : List SearchResult) (best : SearchResult) (bs : ℚ),
      (∀ x ∈ l, x.score ≤ bs) → pickBestM g best bs l = .ok (best, l) := by
  intro l
  induction l with
  | nil => intro best bs _; rfl
  | cons c cs ih =>
    intro best bs hall
    rw [pickBestM, hg c]
    dsimp only
    rw [if_neg (not_lt.mpr (hall c (List.mem_cons_self c cs)))]
    rw [ih best bs fun x hx => hall x (List.mem_cons_of_mem c hx)]

/-- At `lambda = 1` on a pool sorted descending by score, the MMR loop just
takes candidates in order until `k` are selected or the pool empties. -/
theorem mmrLoop_one_sorted (docs : List VectorDoc) (k : Nat)
    (hscore : ∀ selected candidate,
      mmrScoreOf docs 1 selected candidate = .ok candidate.score) :
    ∀ (remaining selected : List SearchResult),
      List.Sorted (fun x y => SearchResult.score y ≤ SearchResult.score x)
        remaining →
      mmrLoop docs k 1 selected remaining =
        .ok (selected ++ remaining.take (k - selected.length)) := by
  intro remaining
  induction remaining with
  | nil =>
    intro selected _
    rw [mmrLoop]
    by_cases hk : selected.length < k
    · rw [if_pos hk]; simp
    · rw [if_neg hk]; simp
  | cons c cs ih =>
    intro selected hsorted
    rw [mmrLoop]
    by_cases hk : selected.length < k
    · rw [if_pos hk]
      have hcs : ∀ x ∈ cs, x.score ≤ c.score :=
        (List.sorted_cons.mp hsorted).1
      split
      · rename_i e heq
        rw [hscore selected c] at heq
        cases heq
      · rename_i s0 heq
        rw [hscore selected c] at heq
        cases heq
        split
        · rename_i e heq2
          rw [pickBestM_sorted_head (mmrScoreOf docs 1 selected)
            (hscore selected) cs c c.score hcs] at heq2
          cases heq2
        · rename_i best rest heq2
          rw [pickBestM_sorted_head (mmrScoreOf docs 1 selected)
            (hscore selected) cs c c.score hcs] at heq2
          cases heq2
          rw [ih (selected ++ [c]) hsorted.of_cons]
          have harith : k - selected.length = (k - (selected.length + 1)) + 1 := by
            omega
          rw [harith, List.take_succ_cons]
          simp [List.append_assoc]
    · rw [if_neg hk]
      have : k - selected.length = 0 := by omega
      simp [this]

/-- For every `lambda`, the MMR loop never selects more than `k` results. -/
theorem mmrLoop_length_le (docs : List VectorDoc) (k : Nat) (lam : ℚ) :
    ∀ (n : Nat) (remaining selected out : List SearchResult),
      remaining.length ≤ n → selected.length ≤ k →
      mmrLoop docs k lam selected remaining = .ok out → out.length ≤ k := by
  intro n
  induction n with
  | zero =>
    intro remaining selected out hn hsel h
    have hnil : remaining = [] := List.eq_nil_of_length_eq_zero (by omega)
    subst hnil
    rw [mmrLoop] at h
    by_cases hk : selected.length < k
    · rw [if_pos hk] at h
      cases h
      exact hsel
    · rw [if_neg hk] at h
      cases h
      exact hsel
  | succ n ih =>
    intro remaining selected out hn hsel h
    cases remaining with
    | nil =>
      rw [mmrLoop] at h
      by_cases hk : selected.length < k
      · rw [if_pos hk] at h
        cases h
        exact hsel
      · rw [if_neg hk] at h
        cases h
        exact hsel
    | cons c cs =>
      rw [mmrLoop] at h
      by_cases hk : selected.length < k
      · rw [if_pos hk] at h
        split at h
        · cases h
        · split at h
          · cases h
          · rename_i s0 heq best rest heq2
            have hr := pickBestM_length _ _ _ _ _ _ heq2
            refine ih rest (selected ++ [best]) out ?_ ?_ h
            · simp only [List.length_cons] at hn
              omega
            · simp only [List.length_append, List.length_cons,
                List.length_nil]
              omega
      · rw [if_neg hk] at h
        cases h
        exact hsel

/-- Every element of a successful `mapM` run succeeded itself. -/
theorem mapM_ok_forall {α β : Type} (f : α → Except String β) :
    ∀ (l : List α) (rs : List β), l.mapM f = .ok rs →
      ∀ a ∈ l, ∃ b, f a = .ok b := by
  intro l
  induction l with
  | nil => intro rs _ a ha; cases ha
  | cons x t ih =>
    intro rs h a ha
    rw [List.mapM_cons, except_bind_ok] at h
    obtain ⟨b, hb, h⟩ := h
    rw [except_bind_ok] at h
    obtain ⟨bs, hbs, _⟩ := h
    rcases List.mem_cons.mp ha with rfl | ha
    · exact ⟨b, hb⟩
    · exact ih bs hbs a ha

/-- A successful cosine similarity implies the two vectors have equal
length (the mismatch branch is the only error exit). -/
theorem cosineSimilarity_ok_lengths (v1 v2 : List ℚ) (q : ℚ)
    (h : cosineSimilarity v1 v2 = .ok q) : v1.length = v2.length := by
  by_cases hlen : v1.length = v2.length
  · exact hlen
  · rw [cosineSimilarity, if_pos hlen] at h
    cases h

/-- C6: for every store state, query vector and `k`: with `lambda = 1`,
`maxMarginalRelevanceSearch(query, k)` returns exactly the value of
`similaritySearch(query, k)` — the same documents in the same order when
scoring succeeds, and the identical propagated error otherwise; and for every
`lambda`, the loop selects until `k` results are chosen or the
`3·k`-candidate pool is exhausted, so any successful result has at most `k`
entries. -/
theorem maxMarginalRelevanceSearch_contract (docs : List VectorDoc)
    (queryVector : List ℚ) (k : Nat) :
    maxMarginalRelevanceSearch docs queryVector k 1 =
      similaritySearch docs queryVector k
    ∧ ∀ (lam : ℚ) (out : List SearchResult),
        maxMarginalRelevanceSearch docs queryVector k lam = .ok out →
        out.length ≤ k := by
  constructor
  case right =>
    intro lam out h
    rw [maxMarginalRelevanceSearch] at h
    rw [except_bind_ok] at h
    obtain ⟨candidates, hc, hloop⟩ := h
    exact mmrLoop_length_le docs k lam candidates.length candidates [] out
      le_rfl (by simp) hloop
  case left =>
  cases hscored2 : scoreAll docs queryVector with
  | error e =>
    have h3 : similaritySearch docs queryVector (k * 3) = .error e := by
      rw [similaritySearch, hscored2]; rfl
    have hk : similaritySearch docs queryVector k = .error e := by
      rw [similaritySearch, hscored2]; rfl
    rw [maxMarginalRelevanceSearch, h3, hk]
    rfl
  | ok scored =>
  have hdim : ∀ d ∈ docs, d.vector.length = queryVector.length := by
    intro d hd
    obtain ⟨r, hr⟩ := mapM_ok_forall _ docs scored hscored2 d hd
    rw [except_map_ok] at hr
    obtain ⟨q, hq, _⟩ := hr
    exact (cosineSimilarity_ok_lengths queryVector d.vector q hq).symm
  have hpair : ∀ d1 ∈ docs, ∀ d2 ∈ docs,
      d1.vector.length = d2.vector.length := fun d1 h1 d2 h2 =>
    (hdim d1 h1).trans (hdim d2 h2).symm
  have hsim3 : similaritySearch docs queryVector (k * 3) =
      .ok ((sortByScoreDesc SearchResult.score scored).take (k * 3)) := by
    rw [similaritySearch, hscored2]
    rfl
  have hsimk : similaritySearch docs queryVector k =
      .ok ((sortByScoreDesc SearchResult.score scored).take k) := by
    rw [similaritySearch, hscored2]
    rfl
  rw [maxMarginalRelevanceSearch, hsim3]
  show mmrLoop docs k 1 []
    ((sortByScoreDesc SearchResult.score scored).take (k * 3)) = _
  rw [mmrLoop_one_sorted docs k (mmrScoreOf_one_eq docs hpair) _ []
    ((sortByScoreDesc_sorted SearchResult.score scored).sublist
      (List.take_sublist (k * 3) _))]
  rw [hsimk]
  simp only [List.nil_append, List.length_nil, Nat.sub_zero,
    List.take_take]
  rw [min_eq_left (by omega)]

/-- Concrete store for the C6 witness. -/
def mmrDocsC6 : List VectorDoc :=
  [⟨"d1", "t1", [1, 0], "m1"⟩, ⟨"d2", "t2", [0, 1], "m2"⟩,
   ⟨"d3", "t3", [1, 0], "m3"⟩]

/-- Witness for C6: on a concrete three-document store, MMR at `lambda = 1`
coincides with plain similarity search, and a `lambda = 1/2` run returns at
most `k = 2` results. -/
theorem maxMarginalRelevanceSearch_contract_witness :
    (∀ d ∈ mmrDocsC6, d.vector.length = ([1, 0] : List ℚ).length)
    ∧ maxMarginalRelevanceSearch mmrDocsC6 [1, 0] 2 1 =
        similaritySearch mmrDocsC6 [1, 0] 2
    ∧ maxMarginalRelevanceSearch mmrDocsC6 [1, 0] 2 (1 / 2) =
        .ok [⟨"t1", 1, "m1"⟩, ⟨"t3", 1, "m3"⟩]
    ∧ ([⟨"t1", 1, "m1"⟩, ⟨"t3", 1, "m3"⟩] : List SearchResult).length ≤ 2 := by
  have hdim : ∀ d ∈ mmrDocsC6, d.vector.length = ([1, 0] : List ℚ).length := by
    decide
  have h := maxMarginalRelevanceSearch_contract mmrDocsC6 [1, 0] 2
  have heval : maxMarginalRelevanceSearch mmrDocsC6 [1, 0] 2 (1 / 2) =
      .ok [⟨"t1", 1, "m1"⟩, ⟨"t3", 1, "m3"⟩] := by
    with_unfolding_all decide
  exact ⟨hdim, h.1, heval, h.2 (1 / 2) _ heval⟩

end LangchanJs
